import Mathlib

/-!
Verification of the PDQ SNARK module (src/snark.rs) against its specification.

The development shallowly embeds the witness builder, the in-circuit
constraint system of `PDQHashCircuit::generate_constraints`, the off-circuit
fixed-point DCT `compute_dct_fixed`, the public-input packing of
`PDQSnark::create_proof`, and the shape checks of `PDQSnark::verify_with_key`.

Machine integers (i64, i128, u64) are modelled as ℤ; the single place where
the source truncates (the `acc as i64` cast at the end of
`compute_dct_fixed`) is modelled explicitly by `wrapI64`.  The 128-bit
accumulators themselves are modelled exactly: the DCT kernel entries are
bounded by DCT_FIXED_SCALE = 2^14 (they are single-precision DCT matrix
values scaled by 2^14, spec section 3), so every accumulation of 64 products
of a kernel entry with an i64 value stays far below 2^127.

The scalar field of BLS12-381 is modelled as ZMod pBls for the concrete
prime modulus pBls.  Boolean-constrained R1CS variables (allocated through
ark-r1cs-std `Boolean`, which enforces x * (x - 1) = 0 over the prime
field) are modelled by the equivalent predicate `isBoolean x` (x = 0 or
x = 1).

The DCT kernel table (`dct::DCT_MATRIX`, module `dct` is not part of the
sources available here) is abstracted as a table `K : Fin 16 → Fin 64 → ℤ`;
every statement that involves it is proved for an arbitrary table, which in
particular covers the real one.  Floating-point preprocessing
(`quantize_buffer`, the scaling of the median and of the per-coefficient
float differences, and `compute_pdq_state` from the missing module
`dwn_pdq`) is represented by the already-rounded integer data it produces,
collected in `PDQState`.
-/

namespace PDQ

/-- Modulus of the BLS12-381 scalar field `ark_bls12_381::Fr`. -/
def pBls : ℕ := 52435875175126190479447740508185965837690552500527637822603658699938581184513

/-- The prime field the circuit works over. -/
abbrev F : Type := ZMod pBls

instance : Fact (1 < pBls) := ⟨by norm_num [pBls]⟩

instance : NeZero pBls := ⟨by norm_num [pBls]⟩

/-- The PDQ downsampled buffer is always 64x64 (snark.rs:23). -/
def BUFFER_EDGE : ℕ := 64

/-- Only the top-left 16x16 block of the DCT is used (snark.rs:25). -/
def DCT_EDGE : ℕ := 16

/-- Number of DCT coefficients constrained by the circuit (snark.rs:26). -/
def DCT_VALUE_COUNT : ℕ := 256

/-- Hash length in bytes (dwn_pdq::PDQ_HASH_LENGTH, 32 bytes for a 256-bit hash). -/
def PDQ_HASH_LENGTH : ℕ := 32

/-- Number of public-input hash bits (snark.rs:27). -/
def PDQ_HASH_BITS : ℕ := 256

/-- Pixel fixed-point scale (snark.rs:30). -/
def LUMA_FIXED_SCALE : ℤ := 2 ^ 12

/-- Kernel fixed-point scale (snark.rs:31). -/
def DCT_FIXED_SCALE : ℤ := 2 ^ 14

/-- Width of the correction range check (snark.rs:34). -/
def CORRECTION_BITS : ℕ := 46

/-- Maximum tolerated rounding correction (snark.rs:35). -/
def CORRECTION_TOLERANCE : ℤ := 2 ^ 46

/-- Embedding of a signed 64-bit integer into the prime field,
from `field_from_i64` (snark.rs:38-44). -/
def field_from_i64 (value : ℤ) : F :=
  if 0 ≤ value then ((value.toNat : ℕ) : F) else -(((-value).toNat : ℕ) : F)

/-- Two-complement truncation of an integer to 64 bits, the semantics of the
`acc as i64` cast at snark.rs:99. -/
def wrapI64 (x : ℤ) : ℤ := (x + 2 ^ 63) % 2 ^ 64 - 2 ^ 63

/-- Row-major index into the flattened 64x64 pixel buffer (snark.rs:83). -/
def pixIndex (k c : Fin 64) : Fin 4096 :=
  ⟨k.val * 64 + c.val, by have hk := k.isLt; have hc := c.isLt; omega⟩

/-- Row of the 16x16 output block addressed by a flat coefficient index. -/
def dctRow (idx : Fin 256) : Fin 16 := ⟨idx.val / 16, by have h := idx.isLt; omega⟩

/-- Column of the 16x16 output block addressed by a flat coefficient index. -/
def dctCol (idx : Fin 256) : Fin 16 := ⟨idx.val % 16, by have h := idx.isLt; omega⟩

/-- First-stage accumulation of `compute_dct_fixed` (snark.rs:77-88): the
16x64 intermediate matrix, accumulated in 128-bit integers (modelled
exactly, see the header note). -/
def intermediateInt (K : Fin 16 → Fin 64 → ℤ) (pix : Fin 4096 → ℤ) (r : Fin 16) (c : Fin 64) : ℤ :=
  ∑ k : Fin 64, K r k * pix (pixIndex k c)

/-- Second-stage accumulation of `compute_dct_fixed` (snark.rs:90-101),
before the final truncation to i64. -/
def dctAcc (K : Fin 16 → Fin 64 → ℤ) (pix : Fin 4096 → ℤ) (r c : Fin 16) : ℤ :=
  ∑ k : Fin 64, intermediateInt K pix r k * K c k

/-- The off-circuit fixed-point DCT `compute_dct_fixed` (snark.rs:74-103),
including the `acc as i64` truncation of each output coefficient. -/
def compute_dct_fixed (K : Fin 16 → Fin 64 → ℤ) (pix : Fin 4096 → ℤ) (idx : Fin 256) : ℤ :=
  wrapI64 (dctAcc K pix (dctRow idx) (dctCol idx))

/-- First-stage in-circuit affine expression (snark.rs:166-178):
`acc += pixel * coeff` over the field. -/
def intermediateF (K : Fin 16 → Fin 64 → ℤ) (pixels : Fin 4096 → F) (r : Fin 16) (c : Fin 64) : F :=
  ∑ k : Fin 64, pixels (pixIndex k c) * field_from_i64 (K r k)

/-- Second-stage in-circuit affine expression (snark.rs:180-191): the i-th
DCT value as an affine combination of the pixel variables. -/
def dctExpr (K : Fin 16 → Fin 64 → ℤ) (pixels : Fin 4096 → F) (idx : Fin 256) : F :=
  ∑ k : Fin 64, intermediateF K pixels (dctRow idx) k * field_from_i64 (K (dctCol idx) k)

/-- A field element is Boolean-constrained: the ark-r1cs-std `Boolean`
allocation enforces x * (x - 1) = 0, which over the prime field pBls is
equivalent to x being 0 or 1. -/
def isBoolean (x : F) : Prop := x = 0 ∨ x = 1

/-- Recombination of 64 bit variables into a field element with doubling
coefficients (snark.rs:213-227). -/
def bitsToFp (bits : Fin 64 → F) : F := ∑ i : Fin 64, bits i * 2 ^ (i : ℕ)

/-- Variables of one per-coefficient sign gadget (snark.rs:194-243).
`dct` is the value of the affine DCT expression feeding the gadget and
`median` the shared median witness. -/
structure SignGadget where
  bit : F
  pos : F
  neg : F
  diffInv : F
  floatDiff : F
  dct : F
  median : F
  corrPosBits : Fin 64 → F
  corrNegBits : Fin 64 → F

/-- The constraints emitted for one coefficient by
`PDQHashCircuit::generate_constraints` (snark.rs:194-243). -/
structure SignGadgetHolds (g : SignGadget) : Prop where
  bit_boolean : isBoolean g.bit
  corrPos_boolean : ∀ i : Fin 64, isBoolean (g.corrPosBits i)
  corrNeg_boolean : ∀ i : Fin 64, isBoolean (g.corrNegBits i)
  corrPos_high_zero : ∀ i : Fin 64, CORRECTION_BITS ≤ (i : ℕ) → g.corrPosBits i = 0
  corrNeg_high_zero : ∀ i : Fin 64, CORRECTION_BITS ≤ (i : ℕ) → g.corrNegBits i = 0
  reconcile : g.dct - g.median - g.floatDiff = bitsToFp g.corrPosBits - bitsToFp g.corrNegBits
  corr_disjoint : bitsToFp g.corrPosBits * bitsToFp g.corrNegBits = 0
  sign_split : g.pos - g.neg = g.floatDiff
  pos_neg_disjoint : g.pos * g.neg = 0
  bit_neg : g.bit * g.neg = 0
  bit_pos : (1 - g.bit) * g.pos = 0
  bit_inv : g.bit * (g.floatDiff * g.diffInv - 1) = 0

/-- A full assignment to the variables of `PDQHashCircuit` (snark.rs:128-247):
256 public hash bits, the median, 4096 pixels and the per-coefficient
witnesses. -/
structure CircuitAssign where
  hashBits : Fin 256 → F
  median : F
  pixels : Fin 4096 → F
  pos : Fin 256 → F
  neg : Fin 256 → F
  diffInv : Fin 256 → F
  floatDiff : Fin 256 → F
  corrPosBits : Fin 256 → Fin 64 → F
  corrNegBits : Fin 256 → Fin 64 → F

/-- The sign gadget of coefficient `idx`, with its DCT input instantiated to
the affine expression over the pixel variables. -/
def gadgetAt (K : Fin 16 → Fin 64 → ℤ) (a : CircuitAssign) (idx : Fin 256) : SignGadget :=
  { bit := a.hashBits idx
    pos := a.pos idx
    neg := a.neg idx
    diffInv := a.diffInv idx
    floatDiff := a.floatDiff idx
    dct := dctExpr K a.pixels idx
    median := a.median
    corrPosBits := a.corrPosBits idx
    corrNegBits := a.corrNegBits idx }

/-- Satisfying assignments of the whole PDQ circuit: every per-coefficient
gadget holds (the DCT stages themselves are affine and substituted into the
gadget, exactly as in the source where they never allocate a witness). -/
def circuitHolds (K : Fin 16 → Fin 64 → ℤ) (a : CircuitAssign) : Prop :=
  ∀ idx : Fin 256, SignGadgetHolds (gadgetAt K a idx)

/-- A field element is the embedding of a signed integer in the declared
pixel range [-LUMA_FIXED_SCALE * 256, LUMA_FIXED_SCALE * 256]. -/
def pixelInRange (x : F) : Prop :=
  ∃ d : ℤ, -(2 ^ 20) ≤ d ∧ d ≤ 2 ^ 20 ∧ x = (d : F)

/-- A field element is the embedding of a non-negative 64-bit integer. -/
def isNonNegInt (x : F) : Prop := ∃ n : ℕ, n < 2 ^ 63 ∧ x = (n : F)

/-- A field element is the embedding of an integer in [0, 2^46), the range
the 46-bit decomposition enforces. -/
def corrInRange (x : F) : Prop := ∃ n : ℕ, n < 2 ^ 46 ∧ x = (n : F)

/-- A field element is the embedding of a positive signed 64-bit integer. -/
def isPosInt (x : F) : Prop := ∃ d : ℤ, 0 < d ∧ d < 2 ^ 63 ∧ x = (d : F)

/-- Errors surfaced by `PDQSnark::create_proof` (snark.rs:297-301, 322-324,
338-346). -/
inductive ProofError where
  | hashMismatch
  | toleranceExceeded
  | inverseFailure
deriving DecidableEq

/-- Field inversion as in ark-ff: defined exactly on nonzero elements
(`Field::inverse` returns None on zero). -/
def fieldInverse (x : F) : Option F := if x = 0 then none else some x⁻¹

/-- Witness data derived for one coefficient by the loop of
`create_proof` (snark.rs:310-347). -/
structure CoeffWitness where
  pos : ℤ
  neg : ℤ
  inv : F
  floatDiff : ℤ
  corrPos : ℤ
  corrNeg : ℤ

/-- The rounding delta of one coefficient: the bindings diff and delta of
the witness loop (snark.rs:311-314). -/
def deltaI (value median floatScaled : ℤ) : ℤ := (value - median) - floatScaled

/-- Positive part of the rounding delta (snark.rs:316-320). -/
def posCorrI (value median floatScaled : ℤ) : ℤ :=
  if 0 ≤ deltaI value median floatScaled then deltaI value median floatScaled else 0

/-- Negative part of the rounding delta (snark.rs:316-320). -/
def negCorrI (value median floatScaled : ℤ) : ℤ :=
  if 0 ≤ deltaI value median floatScaled then 0 else -(deltaI value median floatScaled)

/-- Body of the witness loop of `create_proof` (snark.rs:310-347) for one
coefficient: `value` is the fixed-point DCT value, `median` the scaled
median and `floatScaled` the rounded scaled float difference. -/
def buildCoeff (value median floatScaled : ℤ) : Except ProofError CoeffWitness :=
  if CORRECTION_TOLERANCE < posCorrI value median floatScaled ∨
      CORRECTION_TOLERANCE < negCorrI value median floatScaled then
    .error .toleranceExceeded
  else
    match
      (if field_from_i64 floatScaled = 0 then some (0 : F)
       else fieldInverse (field_from_i64 floatScaled)) with
    | none => .error .inverseFailure
    | some inv =>
      .ok { pos := if 0 < floatScaled then floatScaled else 0
            neg := if 0 < floatScaled then 0 else -floatScaled
            inv := inv
            floatDiff := floatScaled
            corrPos := posCorrI value median floatScaled
            corrNeg := negCorrI value median floatScaled }

/-- The witness loop of `create_proof` over a list of
(fixed-point DCT value, rounded scaled float difference) pairs, returning
at the first failing coefficient exactly as the source loop does. -/
def buildLoop (median : ℤ) : List (ℤ × ℤ) → Except ProofError (List CoeffWitness)
  | [] => .ok []
  | p :: rest =>
    match buildCoeff p.1 median p.2 with
    | .error e => .error e
    | .ok w =>
      match buildLoop median rest with
      | .error e => .error e
      | .ok ws => .ok (w :: ws)

/-- Modelled from the spec: the PDQ state produced by `compute_pdq_state`
(module `dwn_pdq`, not among the available sources) combined with the
floating-point rounding steps of `create_proof` (snark.rs:291-293, 312-313),
which are not representable here.  `quantised` is the output of
`quantize_buffer`, `medianScaled` is round(median * FINAL_SCALE),
`floatScaled idx` is round((dct16[idx] - median) * FINAL_SCALE) and `hash`
is the authoritative PDQ hash of the image. -/
structure PDQState where
  quantised : Fin 4096 → ℤ
  medianScaled : ℤ
  floatScaled : Fin 256 → ℤ
  hash : List ℕ

/-- The witness fields of `PDQHashCircuit` as filled in by `create_proof`
(snark.rs:349-359). -/
structure CircuitInput where
  pixels : List ℤ
  median : ℤ
  hash : List ℕ
  posDiffs : List ℤ
  negDiffs : List ℤ
  diffInverses : List F
  floatDiffs : List ℤ
  corrPos : List ℤ
  corrNeg : List ℤ

/-- Public-input packing of `create_proof` (snark.rs:362-366): reversed
bytes, bits LSB-first within each byte. -/
def publicInputs (hash : List ℕ) : List F :=
  hash.reverse.flatMap fun byte =>
    (List.range 8).map fun bit => (((byte >>> bit) &&& 1 : ℕ) : F)

/-- The Boolean value allocated for public hash bit `idx` by
`generate_constraints` (snark.rs:150-155). -/
def circuitHashBitValue (hash : List ℕ) (idx : ℕ) : Bool :=
  ((hash.getD (PDQ_HASH_LENGTH - 1 - idx / 8) 0) >>> (idx % 8)) &&& 1 == 1

/-- The 256 (fixed-point DCT value, rounded scaled float difference) pairs
the witness loop of `create_proof` iterates over (snark.rs:292, 310-313). -/
def dctPairs (K : Fin 16 → Fin 64 → ℤ) (st : PDQState) : List (ℤ × ℤ) :=
  ((List.finRange 256).map fun idx => compute_dct_fixed K st.quantised idx).zip
    ((List.finRange 256).map st.floatScaled)

/-- The circuit input assembled by `create_proof` from the PDQ state and the
derived per-coefficient witnesses (snark.rs:349-359). -/
def circuitOf (st : PDQState) (ws : List CoeffWitness) : CircuitInput :=
  { pixels := (List.finRange 4096).map st.quantised
    median := st.medianScaled
    hash := st.hash
    posDiffs := ws.map fun w => w.pos
    negDiffs := ws.map fun w => w.neg
    diffInverses := ws.map fun w => w.inv
    floatDiffs := ws.map fun w => w.floatDiff
    corrPos := ws.map fun w => w.corrPos
    corrNeg := ws.map fun w => w.corrNeg }

/-- The prover side `PDQSnark::create_proof` (snark.rs:281-369) after image
decoding: compares the supplied target hash with the PDQ hash of the state,
derives the per-coefficient witnesses, assembles the circuit input, invokes
the (abstract) Groth16 prover on it with the caller RNG and packs the
public inputs.  The assembled circuit input is returned alongside so that
statements about the derived witness can be expressed. -/
def create_proof {Pf RNG : Type} (prove : CircuitInput → RNG → Pf)
    (K : Fin 16 → Fin 64 → ℤ) (st : PDQState) (targetHash : List ℕ) (rng : RNG) :
    Except ProofError (CircuitInput × Pf × List F) :=
  if st.hash ≠ targetHash then .error .hashMismatch
  else
    match buildLoop st.medianScaled (dctPairs K st) with
    | .error e => .error e
    | .ok ws => .ok (circuitOf st ws, prove (circuitOf st ws) rng, publicInputs st.hash)

/-- Errors surfaced by `PDQSnark::verify_with_key` (snark.rs:386-399). -/
inductive VerifyError where
  | publicInputLength
  | keyShape
deriving DecidableEq

/-- The verifier side `PDQSnark::verify_with_key` (snark.rs:381-406).
`gammaAbcLen` is the length of the gamma_abc_g1 commitment vector of the
verifying key.  Modelled from the spec: the downstream Groth16 pairing
check (`process_vk` and `verify_with_processed_vk` of arkworks) is a total
Boolean function `groth16Verify` of the public inputs and the proof, since
verification never throws on a merely invalid proof once the shapes match. -/
def verify_with_key {Pf : Type} (groth16Verify : List F → Pf → Bool)
    (gammaAbcLen : ℕ) (proof : Pf) (publicInputsVec : List F) : Except VerifyError Bool :=
  if publicInputsVec.length ≠ PDQ_HASH_BITS then .error .publicInputLength
  else if gammaAbcLen ≠ publicInputsVec.length + 1 then .error .keyShape
  else .ok (groth16Verify publicInputsVec proof)

/-- The all-zero kernel table, used to instantiate statements about the
abstract kernel at a concrete value. -/
def kZero : Fin 16 → Fin 64 → ℤ := fun _ _ => 0

/-- A sign gadget assignment with every variable zero. -/
def zeroGadget : SignGadget :=
  { bit := 0, pos := 0, neg := 0, diffInv := 0, floatDiff := 0, dct := 0, median := 0
    corrPosBits := fun _ => 0, corrNegBits := fun _ => 0 }

/-- A circuit assignment with every variable zero. -/
def zeroAssign : CircuitAssign :=
  { hashBits := fun _ => 0, median := 0, pixels := fun _ => 0
    pos := fun _ => 0, neg := fun _ => 0, diffInv := fun _ => 0, floatDiff := fun _ => 0
    corrPosBits := fun _ _ => 0, corrNegBits := fun _ _ => 0 }

/-- A satisfying circuit assignment in which every public hash bit is 1
although every float difference is the embedding of -1: pos is set to the
embedding of -1 and neg to 0, which no constraint rules out. -/
def flipAssign : CircuitAssign :=
  { hashBits := fun _ => 1, median := 1, pixels := fun _ => 0
    pos := fun _ => -1, neg := fun _ => 0, diffInv := fun _ => -1, floatDiff := fun _ => -1
    corrPosBits := fun _ _ => 0, corrNegBits := fun _ _ => 0 }

/-- A satisfying circuit assignment whose pixel variables all hold the
embedding of 2^40, far outside the declared pixel range. -/
def hugePixelAssign : CircuitAssign :=
  { hashBits := fun _ => 0, median := 0, pixels := fun _ => ((2 ^ 40 : ℤ) : F)
    pos := fun _ => 0, neg := fun _ => 0, diffInv := fun _ => 0, floatDiff := fun _ => 0
    corrPosBits := fun _ _ => 0, corrNegBits := fun _ _ => 0 }

/-- The coefficient witness produced by the builder when the rounding delta
is exactly 2^46. -/
def boundaryWitness : CoeffWitness :=
  { pos := 0, neg := 0, inv := 0, floatDiff := 0, corrPos := 2 ^ 46, corrNeg := 0 }

/-- The coefficient witness produced by the builder on all-zero inputs. -/
def zeroCoeffWitness : CoeffWitness :=
  { pos := 0, neg := 0, inv := 0, floatDiff := 0, corrPos := 0, corrNeg := 0 }

/-- The all-zero pixel vector, used to instantiate statements at a concrete
input. -/
def zPix : Fin 4096 → ℤ := fun _ => 0

lemma field_from_i64_eq_cast (v : ℤ) : field_from_i64 v = (v : F) := by
  unfold field_from_i64
  by_cases h : 0 ≤ v
  · rw [if_pos h, ← Int.cast_natCast, Int.toNat_of_nonneg h]
  · have h2 : 0 ≤ -v := by omega
    rw [if_neg h, ← Int.cast_natCast, Int.toNat_of_nonneg h2, Int.cast_neg, neg_neg]

lemma bitsToFp_zeroFun : bitsToFp (fun _ => 0) = 0 := by
  simp [bitsToFp]

lemma dctExpr_kZero (pixels : Fin 4096 → F) (idx : Fin 256) :
    dctExpr kZero pixels idx = 0 := by
  simp [dctExpr, intermediateF, kZero, field_from_i64]

lemma intCast_inj_small {a b : ℤ} (ha : |a| < 2 ^ 70) (hb : |b| < 2 ^ 70)
    (h : (a : F) = b) : a = b := by
  have h2 := (ZMod.intCast_eq_intCast_iff a b pBls).mp h
  have h3 : (pBls : ℤ) ∣ b - a := Int.ModEq.dvd h2
  have hp : (2 ^ 71 : ℤ) < (pBls : ℤ) := by norm_num [pBls]
  rcases h3 with ⟨k, hk⟩
  have hz : b - a = 0 := by
    by_contra hne
    have hk0 : k ≠ 0 := by rintro rfl; simp at hk; omega
    have hge : (pBls : ℤ) ≤ |b - a| := by
      rw [hk, abs_mul]
      have h1k : (1 : ℤ) ≤ |k| := Int.one_le_abs hk0
      have hpp : (0 : ℤ) ≤ (pBls : ℤ) := by positivity
      nlinarith [abs_nonneg (pBls : ℤ), abs_of_nonneg hpp]
    have hsb : |b - a| ≤ |b| + |a| := abs_sub b a
    omega
  omega

lemma zeroGadget_holds : SignGadgetHolds zeroGadget := by
  refine ⟨Or.inl rfl, fun i => Or.inl rfl, fun i => Or.inl rfl, fun i _ => rfl,
    fun i _ => rfl, ?_, ?_, ?_, ?_, ?_, ?_, ?_⟩ <;>
    simp [zeroGadget, bitsToFp]

lemma zeroAssign_holds : circuitHolds kZero zeroAssign := by
  intro idx
  refine ⟨Or.inl rfl, fun i => Or.inl rfl, fun i => Or.inl rfl, fun i _ => rfl,
    fun i _ => rfl, ?_, ?_, ?_, ?_, ?_, ?_, ?_⟩ <;>
    simp [gadgetAt, zeroAssign, bitsToFp, dctExpr_kZero]

lemma flipAssign_holds : circuitHolds kZero flipAssign := by
  intro idx
  refine ⟨Or.inr rfl, fun i => Or.inl rfl, fun i => Or.inl rfl, fun i _ => rfl,
    fun i _ => rfl, ?_, ?_, ?_, ?_, ?_, ?_, ?_⟩ <;>
    norm_num [gadgetAt, flipAssign, bitsToFp, dctExpr_kZero]

lemma hugePixelAssign_holds : circuitHolds kZero hugePixelAssign := by
  intro idx
  refine ⟨Or.inl rfl, fun i => Or.inl rfl, fun i => Or.inl rfl, fun i _ => rfl,
    fun i _ => rfl, ?_, ?_, ?_, ?_, ?_, ?_, ?_⟩ <;>
    simp [gadgetAt, hugePixelAssign, bitsToFp, dctExpr_kZero]

lemma corr_bits_in_range (b : Fin 64 → F) (hb : ∀ i, isBoolean (b i))
    (hhi : ∀ i : Fin 64, CORRECTION_BITS ≤ (i : ℕ) → b i = 0) :
    corrInRange (bitsToFp b) := by
  classical
  refine ⟨∑ i : Fin 64, if b i = 1 then 2 ^ (i : ℕ) else 0, ?_, ?_⟩
  · have hle : ∀ i : Fin 64,
        (if b i = 1 then 2 ^ (i : ℕ) else 0) ≤ (if (i : ℕ) < 46 then 2 ^ (i : ℕ) else 0) := by
      intro i
      by_cases hlt : (i : ℕ) < 46
      · by_cases hbi : b i = 1 <;> simp [hlt, hbi]
      · have hz : b i = 0 := hhi i (by unfold CORRECTION_BITS; omega)
        have hne : ¬ (b i = 1) := by rw [hz]; exact zero_ne_one
        simp [hlt, hne]
    have hsum : (∑ i : Fin 64, if b i = 1 then 2 ^ (i : ℕ) else 0)
        ≤ ∑ i : Fin 64, if (i : ℕ) < 46 then 2 ^ (i : ℕ) else 0 :=
      Finset.sum_le_sum fun i _ => hle i
    have htot : (∑ i : Fin 64, if (i : ℕ) < 46 then 2 ^ (i : ℕ) else 0) = 2 ^ 46 - 1 := by
      decide
    omega
  · rw [Nat.cast_sum]
    unfold bitsToFp
    symm
    refine Finset.sum_congr rfl fun i _ => ?_
    rcases hb i with h0 | h1
    · simp only [h0]
      rw [if_neg zero_ne_one]
      simp
    · simp only [h1, if_true]
      push_cast
      ring

/-- C5: in every satisfying assignment of the per-coefficient sign gadget in
which the float difference witness is zero, the public hash bit is forced to
zero, because the constraint bit * (float_diff * inv - 1) = 0 degenerates to
bit * (-1) = 0. -/
theorem sign_gadget_zero_diff_bit_zero (g : SignGadget) (h : SignGadgetHolds g)
    (hfd : g.floatDiff = 0) : g.bit = 0 := by
  have hc := h.bit_inv
  rw [hfd] at hc
  have hneg : -g.bit = 0 := by linear_combination hc
  exact neg_eq_zero.mp hneg

/-- Witness for C5: the all-zero gadget assignment satisfies every gadget
constraint and has zero float difference, and the theorem yields bit = 0. -/
theorem sign_gadget_zero_diff_bit_zero_witness : zeroGadget.bit = 0 :=
  sign_gadget_zero_diff_bit_zero zeroGadget zeroGadget_holds rfl

/-- C1: the circuit constraint system admits a satisfying assignment in which
every public hash bit is 1 while every float difference is the field
embedding of -1, a non-positive signed integer.  The pos and neg witnesses
are never range-checked, so nothing ties the hash bit to the sign of
float_diff; the claimed equivalence fails for every dishonest choice of pos
and neg. -/
theorem sign_gadget_accepts_flipped_bit :
    circuitHolds kZero flipAssign ∧
    flipAssign.floatDiff 0 = ((-1 : ℤ) : F) ∧
    flipAssign.hashBits 0 = 1 ∧
    (-1 : ℤ) ≤ 0 :=
  ⟨flipAssign_holds, by simp [flipAssign], rfl, by norm_num⟩

/-- C3 counterexample: a satisfying assignment whose pixel variables hold
the embedding of 2^40, which lies outside the declared pixel range
[-2^20, 2^20]; the constraint system does not range-check pixels. -/
theorem circuit_accepts_out_of_range_pixel :
    circuitHolds kZero hugePixelAssign ∧ ¬ pixelInRange (hugePixelAssign.pixels 0) := by
  refine ⟨hugePixelAssign_holds, ?_⟩
  rintro ⟨d, hd1, hd2, heq⟩
  have h40 : ((2 ^ 40 : ℤ) : F) = (d : F) := heq
  have hde : (2 ^ 40 : ℤ) = d :=
    intCast_inj_small (by norm_num) (by rw [abs_lt]; omega) h40
  omega

/-- C3 (amended): in every satisfying assignment the recombined corr_pos and
corr_neg values are embeddings of integers in [0, 2^46), as enforced by the
46-bit decomposition; the pixel, pos and neg variables carry no range
constraint at all. -/
theorem circuit_corr_in_range (K : Fin 16 → Fin 64 → ℤ) (a : CircuitAssign)
    (h : circuitHolds K a) (idx : Fin 256) :
    corrInRange (bitsToFp (a.corrPosBits idx)) ∧ corrInRange (bitsToFp (a.corrNegBits idx)) := by
  have hg := h idx
  exact ⟨corr_bits_in_range _ (fun i => hg.corrPos_boolean i) (fun i hi => hg.corrPos_high_zero i hi),
    corr_bits_in_range _ (fun i => hg.corrNeg_boolean i) (fun i hi => hg.corrNeg_high_zero i hi)⟩

/-- Witness for the amended C3: the all-zero assignment satisfies the
circuit and its corr recombinations are in range. -/
theorem circuit_corr_in_range_witness :
    corrInRange (bitsToFp (zeroAssign.corrPosBits 0)) ∧
    corrInRange (bitsToFp (zeroAssign.corrNegBits 0)) :=
  circuit_corr_in_range kZero zeroAssign zeroAssign_holds 0

lemma posCorrI_eq (v m f : ℤ) : posCorrI v m f = if 0 ≤ v - m - f then v - m - f else 0 := rfl

lemma negCorrI_eq (v m f : ℤ) : negCorrI v m f = if 0 ≤ v - m - f then 0 else -(v - m - f) := rfl

lemma corrI_guard_iff (v m f : ℤ) :
    (CORRECTION_TOLERANCE < posCorrI v m f ∨ CORRECTION_TOLERANCE < negCorrI v m f) ↔
      CORRECTION_TOLERANCE < |v - m - f| := by
  rw [posCorrI_eq, negCorrI_eq]
  unfold CORRECTION_TOLERANCE
  rcases le_or_lt 0 (v - m - f) with hd | hd
  · rw [abs_of_nonneg hd, if_pos hd, if_pos hd]
    omega
  · rw [abs_of_neg hd, if_neg (by omega : ¬ 0 ≤ v - m - f), if_neg (by omega : ¬ 0 ≤ v - m - f)]
    omega

lemma buildCoeff_error_of_tol {v m f : ℤ} (h : CORRECTION_TOLERANCE < |v - m - f|) :
    buildCoeff v m f = .error .toleranceExceeded := by
  unfold buildCoeff
  rw [if_pos ((corrI_guard_iff v m f).mpr h)]

lemma buildCoeff_ok_of_small {v m f : ℤ} (h : |v - m - f| ≤ CORRECTION_TOLERANCE) :
    buildCoeff v m f = .ok
      { pos := if 0 < f then f else 0
        neg := if 0 < f then 0 else -f
        inv := if field_from_i64 f = 0 then 0 else (field_from_i64 f)⁻¹
        floatDiff := f
        corrPos := posCorrI v m f
        corrNeg := negCorrI v m f } := by
  unfold buildCoeff
  rw [if_neg (by rw [corrI_guard_iff]; omega)]
  by_cases hz : field_from_i64 f = 0
  · simp only [if_pos hz]
  · simp only [if_neg hz]
    unfold fieldInverse
    simp only [if_neg hz]

lemma buildCoeff_error_eq {v m f : ℤ} {e : ProofError}
    (h : buildCoeff v m f = .error e) : e = .toleranceExceeded := by
  by_cases ht : CORRECTION_TOLERANCE < |v - m - f|
  · rw [buildCoeff_error_of_tol ht] at h
    injection h with h2
    exact h2.symm
  · rw [buildCoeff_ok_of_small (by omega)] at h
    cases h

lemma buildCoeff_error_tol_iff {v m f : ℤ} :
    buildCoeff v m f = .error .toleranceExceeded ↔ CORRECTION_TOLERANCE < |v - m - f| := by
  constructor
  · intro h
    by_contra ht
    rw [buildCoeff_ok_of_small (by omega)] at h
    cases h
  · exact buildCoeff_error_of_tol

lemma buildCoeff_ok_corr {v m f : ℤ} {w : CoeffWitness}
    (h : buildCoeff v m f = .ok w) :
    0 ≤ w.corrPos ∧ w.corrPos ≤ CORRECTION_TOLERANCE ∧
    0 ≤ w.corrNeg ∧ w.corrNeg ≤ CORRECTION_TOLERANCE := by
  by_cases ht : CORRECTION_TOLERANCE < |v - m - f|
  · rw [buildCoeff_error_of_tol ht] at h
    cases h
  · rw [buildCoeff_ok_of_small (by omega)] at h
    injection h with h2
    subst h2
    push_neg at ht
    simp only [posCorrI_eq, negCorrI_eq]
    rcases le_or_lt 0 (v - m - f) with hd | hd
    · rw [abs_of_nonneg hd] at ht
      rw [if_pos hd, if_pos hd]
      exact ⟨hd, ht, le_refl 0, le_trans hd ht⟩
    · rw [abs_of_neg hd] at ht
      rw [if_neg (by omega : ¬ 0 ≤ v - m - f), if_neg (by omega : ¬ 0 ≤ v - m - f)]
      refine ⟨le_refl 0, ?_, by omega, ht⟩
      exact le_trans (by omega) ht

lemma buildLoop_error_eq {m : ℤ} {l : List (ℤ × ℤ)} {e : ProofError}
    (h : buildLoop m l = .error e) : e = .toleranceExceeded := by
  induction l with
  | nil => cases h
  | cons p t ih =>
    unfold buildLoop at h
    cases hc : buildCoeff p.1 m p.2 with
    | error e2 =>
      rw [hc] at h
      injection h with h2
      subst h2
      exact buildCoeff_error_eq hc
    | ok w =>
      rw [hc] at h
      cases hl : buildLoop m t with
      | error e2 =>
        rw [hl] at h
        injection h with h2
        subst h2
        exact ih hl
      | ok ws =>
        rw [hl] at h
        cases h

lemma buildLoop_ok_mem {m : ℤ} {l : List (ℤ × ℤ)} {ws : List CoeffWitness}
    (h : buildLoop m l = .ok ws) {w : CoeffWitness} (hw : w ∈ ws) :
    ∃ p ∈ l, buildCoeff p.1 m p.2 = .ok w := by
  induction l generalizing ws with
  | nil =>
    injection h with h2
    subst h2
    cases hw
  | cons p t ih =>
    unfold buildLoop at h
    cases hc : buildCoeff p.1 m p.2 with
    | error e2 => rw [hc] at h; cases h
    | ok w0 =>
      rw [hc] at h
      cases hl : buildLoop m t with
      | error e2 => rw [hl] at h; cases h
      | ok ws0 =>
        rw [hl] at h
        injection h with h2
        subst h2
        rcases List.mem_cons.mp hw with h3 | h3
        · subst h3
          exact ⟨p, List.mem_cons_self p t, hc⟩
        · rcases ih hl h3 with ⟨q, hq1, hq2⟩
          exact ⟨q, List.mem_cons_of_mem p hq1, hq2⟩

lemma buildLoop_error_tol_iff {m : ℤ} {l : List (ℤ × ℤ)} :
    buildLoop m l = .error .toleranceExceeded ↔
      ∃ p ∈ l, CORRECTION_TOLERANCE < |p.1 - m - p.2| := by
  induction l with
  | nil => simp [buildLoop]
  | cons p t ih =>
    constructor
    · intro h
      unfold buildLoop at h
      cases hc : buildCoeff p.1 m p.2 with
      | error e2 =>
        rw [hc] at h
        injection h with h2
        rw [h2] at hc
        exact ⟨p, List.mem_cons_self p t, buildCoeff_error_tol_iff.mp hc⟩
      | ok w0 =>
        rw [hc] at h
        cases hl : buildLoop m t with
        | error e2 =>
          rw [hl] at h
          injection h with h2
          rw [h2] at hl
          rcases ih.mp hl with ⟨q, hq1, hq2⟩
          exact ⟨q, List.mem_cons_of_mem p hq1, hq2⟩
        | ok ws => rw [hl] at h; cases h
    · rintro ⟨q, hq1, hq2⟩
      rcases List.mem_cons.mp hq1 with h3 | h3
      · subst h3
        unfold buildLoop
        rw [buildCoeff_error_of_tol hq2]
      · unfold buildLoop
        cases hc : buildCoeff p.1 m p.2 with
        | error e2 =>
          rw [buildCoeff_error_eq hc]
        | ok w0 =>
          rw [ih.mpr ⟨q, h3, hq2⟩]

/-- C2 counterexample: when the rounding delta is exactly 2^46 the witness
builder succeeds (the source compares with strict inequality) and the
produced corr_pos is 2^46, which does not lie in [0, 2^46). -/
theorem corr_range_boundary_counterexample :
    buildLoop 0 [((2 : ℤ) ^ 46, (0 : ℤ))] = .ok [boundaryWitness] ∧
    ¬ (boundaryWitness.corrPos < 2 ^ 46) := by
  constructor
  · have h1 : buildCoeff ((2 : ℤ) ^ 46) 0 0 = .ok boundaryWitness := by
      rw [buildCoeff_ok_of_small (by norm_num [CORRECTION_TOLERANCE])]
      norm_num [boundaryWitness, field_from_i64, posCorrI_eq, negCorrI_eq]
    unfold buildLoop
    rw [h1]
    rfl
  · norm_num [boundaryWitness]

/-- C2 (amended): every coefficient witness the builder produces has
corr_pos and corr_neg in the closed interval [0, 2^46], and the builder
fails with ToleranceExceeded exactly when some coefficient has
|delta| > CORRECTION_TOLERANCE = 2^46. -/
theorem witness_corr_range_and_tolerance (median : ℤ) (pairs : List (ℤ × ℤ)) :
    (∀ ws, buildLoop median pairs = .ok ws → ∀ w ∈ ws,
        0 ≤ w.corrPos ∧ w.corrPos ≤ CORRECTION_TOLERANCE ∧
        0 ≤ w.corrNeg ∧ w.corrNeg ≤ CORRECTION_TOLERANCE) ∧
    (buildLoop median pairs = .error .toleranceExceeded ↔
        ∃ p ∈ pairs, CORRECTION_TOLERANCE < |p.1 - median - p.2|) := by
  constructor
  · intro ws hws w hw
    rcases buildLoop_ok_mem hws hw with ⟨p, _, hp⟩
    exact buildCoeff_ok_corr hp
  · exact buildLoop_error_tol_iff

/-- Witness for the amended C2: on the all-zero singleton input the builder
succeeds and the produced corrections satisfy the bounds. -/
theorem witness_corr_range_and_tolerance_witness :
    0 ≤ zeroCoeffWitness.corrPos ∧ zeroCoeffWitness.corrPos ≤ CORRECTION_TOLERANCE ∧
    0 ≤ zeroCoeffWitness.corrNeg ∧ zeroCoeffWitness.corrNeg ≤ CORRECTION_TOLERANCE := by
  have hloop : buildLoop 0 [((0 : ℤ), (0 : ℤ))] = .ok [zeroCoeffWitness] := by
    have h1 : buildCoeff (0 : ℤ) 0 0 = .ok zeroCoeffWitness := by
      rw [buildCoeff_ok_of_small (by norm_num [CORRECTION_TOLERANCE])]
      norm_num [zeroCoeffWitness, field_from_i64, posCorrI_eq, negCorrI_eq]
    unfold buildLoop
    rw [h1]
    rfl
  exact (witness_corr_range_and_tolerance 0 [((0 : ℤ), (0 : ℤ))]).1 [zeroCoeffWitness] hloop
    zeroCoeffWitness (List.mem_singleton.mpr rfl)

/-- C7: after image decoding, create_proof fails with HashMismatch exactly
when the supplied target hash differs from the hash of the PDQ state, and
the check precedes witness building and proof generation. -/
theorem create_proof_hash_mismatch_iff {Pf RNG : Type}
    (prove : CircuitInput → RNG → Pf) (K : Fin 16 → Fin 64 → ℤ)
    (st : PDQState) (targetHash : List ℕ) (rng : RNG) :
    create_proof prove K st targetHash rng = .error .hashMismatch ↔
      st.hash ≠ targetHash := by
  by_cases h : st.hash ≠ targetHash
  · unfold create_proof
    rw [if_pos h]
    exact iff_of_true rfl h
  · unfold create_proof
    rw [if_neg h]
    cases hb : buildLoop st.medianScaled (dctPairs K st) with
    | error e =>
      have he := buildLoop_error_eq hb
      subst he
      exact iff_of_false (fun hcon => ProofError.noConfusion (Except.error.inj hcon)) h
    | ok ws =>
      exact iff_of_false (fun hcon => Except.noConfusion hcon) h

/-- C9: the witness circuit assembled by create_proof and the packed public
inputs do not depend on the supplied RNG; randomness enters only through
the Groth16 prover invocation. -/
theorem create_proof_witness_deterministic {Pf RNG : Type}
    (prove : CircuitInput → RNG → Pf) (K : Fin 16 → Fin 64 → ℤ)
    (st : PDQState) (targetHash : List ℕ) (rng1 rng2 : RNG) :
    Except.map (fun out => (out.1, out.2.2)) (create_proof prove K st targetHash rng1) =
    Except.map (fun out => (out.1, out.2.2)) (create_proof prove K st targetHash rng2) := by
  by_cases h : st.hash ≠ targetHash
  · unfold create_proof
    simp only [if_pos h]
  · unfold create_proof
    simp only [if_neg h]
    cases hb : buildLoop st.medianScaled (dctPairs K st) with
    | error e => rfl
    | ok ws => rfl

/-- C10: the inverse-failure branch of the witness loop is unreachable; the
outcome of create_proof is always a hash mismatch, a tolerance failure or a
successfully assembled proof. -/
theorem create_proof_inverse_branch_unreachable {Pf RNG : Type}
    (prove : CircuitInput → RNG → Pf) (K : Fin 16 → Fin 64 → ℤ)
    (st : PDQState) (targetHash : List ℕ) (rng : RNG) :
    create_proof prove K st targetHash rng = .error .hashMismatch ∨
    create_proof prove K st targetHash rng = .error .toleranceExceeded ∨
    ∃ out, create_proof prove K st targetHash rng = .ok out := by
  by_cases h : st.hash ≠ targetHash
  · left
    unfold create_proof
    rw [if_pos h]
  · unfold create_proof
    rw [if_neg h]
    cases hb : buildLoop st.medianScaled (dctPairs K st) with
    | error e =>
      right
      left
      have he := buildLoop_error_eq hb
      subst he
      rfl
    | ok ws =>
      right
      right
      exact ⟨_, rfl⟩

lemma wrapI64_eq_of_small {x : ℤ} (h : |x| < 2 ^ 63) : wrapI64 x = x := by
  unfold wrapI64
  rw [abs_lt] at h
  omega

lemma dctExpr_eq_cast (K : Fin 16 → Fin 64 → ℤ) (pix : Fin 4096 → ℤ) (idx : Fin 256) :
    dctExpr K (fun j => ((pix j : ℤ) : F)) idx
      = ((dctAcc K pix (dctRow idx) (dctCol idx) : ℤ) : F) := by
  unfold dctExpr dctAcc intermediateF intermediateInt
  simp only [field_from_i64_eq_cast]
  push_cast
  refine Finset.sum_congr rfl fun k _ => ?_
  rw [Finset.sum_mul, Finset.sum_mul]
  refine Finset.sum_congr rfl fun k2 _ => ?_
  ring

/-- C4: for every kernel table and quantised pixel vector whose accumulated
output coefficients fit in a 64-bit signed integer, each of the 256
in-circuit affine DCT expressions evaluates, under the honest pixel
witness, to exactly the field embedding of the corresponding integer
returned by the off-circuit compute_dct_fixed. -/
theorem dct_circuit_refines_fixed (K : Fin 16 → Fin 64 → ℤ) (pix : Fin 4096 → ℤ)
    (hfit : ∀ idx : Fin 256, |dctAcc K pix (dctRow idx) (dctCol idx)| < 2 ^ 63)
    (idx : Fin 256) :
    dctExpr K (fun j => ((pix j : ℤ) : F)) idx = ((compute_dct_fixed K pix idx : ℤ) : F) := by
  unfold compute_dct_fixed
  rw [wrapI64_eq_of_small (hfit idx), dctExpr_eq_cast]

/-- Witness for C4: the theorem applied to the zero kernel table and the
all-zero pixel vector, whose accumulators trivially fit. -/
theorem dct_circuit_refines_fixed_witness :
    dctExpr kZero (fun j => ((zPix j : ℤ) : F)) 0
      = ((compute_dct_fixed kZero zPix 0 : ℤ) : F) :=
  dct_circuit_refines_fixed kZero zPix
    (by intro idx; norm_num [dctAcc, intermediateInt, kZero]) 0

/-- C6: verify_with_key rejects a public-input vector whose length is not
256 with PublicInputLength, rejects (once the length check passed) a
verifying key whose commitment vector length is not 257 with KeyShape, and
on well-shaped inputs returns the Boolean verdict of the Groth16 pairing
check without ever erroring. -/
theorem verify_with_key_shape_checks {Pf : Type} (groth16Verify : List F → Pf → Bool)
    (gammaAbcLen : ℕ) (proof : Pf) (pub : List F) :
    (verify_with_key groth16Verify gammaAbcLen proof pub = .error .publicInputLength ↔
        pub.length ≠ PDQ_HASH_BITS) ∧
    (verify_with_key groth16Verify gammaAbcLen proof pub = .error .keyShape ↔
        (pub.length = PDQ_HASH_BITS ∧ gammaAbcLen ≠ pub.length + 1)) ∧
    (pub.length = PDQ_HASH_BITS → gammaAbcLen = pub.length + 1 →
        verify_with_key groth16Verify gammaAbcLen proof pub = .ok (groth16Verify pub proof)) := by
  unfold verify_with_key
  by_cases h1 : pub.length ≠ PDQ_HASH_BITS
  · rw [if_pos h1]
    exact ⟨iff_of_true rfl h1,
      iff_of_false (fun hcon => VerifyError.noConfusion (Except.error.inj hcon))
        (fun hcon => h1 hcon.1),
      fun hlen _ => absurd hlen h1⟩
  · rw [if_neg h1]
    push_neg at h1
    by_cases h2 : gammaAbcLen ≠ pub.length + 1
    · rw [if_pos h2]
      exact ⟨iff_of_false (fun hcon => VerifyError.noConfusion (Except.error.inj hcon))
          (fun hcon => hcon h1),
        iff_of_true rfl ⟨h1, h2⟩,
        fun _ hg => absurd hg h2⟩
    · rw [if_neg h2]
      push_neg at h2
      exact ⟨iff_of_false (fun hcon => Except.noConfusion hcon) (fun hcon => hcon h1),
        iff_of_false (fun hcon => Except.noConfusion hcon) (fun hcon => hcon.2 h2),
        fun _ _ => rfl⟩

/-- Witness for C6: on 256 zero public inputs and a commitment length of
257 the verifier returns the Groth16 verdict. -/
theorem verify_with_key_shape_checks_witness :
    verify_with_key (fun _ _ => false) 257 () (List.replicate 256 (0 : F)) = .ok false :=
  (verify_with_key_shape_checks (fun _ _ => false) 257 () (List.replicate 256 (0 : F))).2.2
    (by rw [List.length_replicate]; rfl) (by rw [List.length_replicate])

lemma flatBits_length (g : ℕ → ℕ → F) (l : List ℕ) :
    (l.flatMap fun b => (List.range 8).map (g b)).length = 8 * l.length := by
  induction l with
  | nil => simp
  | cons b t ih =>
    rw [List.flatMap_cons, List.length_append, ih]
    simp
    omega

lemma flatBits_getD (g : ℕ → ℕ → F) (l : List ℕ) (i : ℕ) (h : i < 8 * l.length) :
    (l.flatMap fun b => (List.range 8).map (g b)).getD i 0 = g (l.getD (i / 8) 0) (i % 8) := by
  induction l generalizing i with
  | nil => simp at h
  | cons b t ih =>
    rw [List.flatMap_cons]
    by_cases h8 : i < 8
    · have hlen : i < ((List.range 8).map (g b)).length := by simp [h8]
      rw [List.getD_append _ _ _ _ hlen]
      rw [List.getD_eq_getElem?_getD, List.getElem?_map, List.getElem?_range h8]
      have e1 : i / 8 = 0 := by omega
      have e2 : i % 8 = i := by omega
      rw [e1, e2]
      rfl
    · push_neg at h8
      have hge : ((List.range 8).map (g b)).length ≤ i := by simp; omega
      rw [List.getD_eq_getElem?_getD, List.getElem?_append_right hge,
        ← List.getD_eq_getElem?_getD]
      have hlen8 : ((List.range 8).map (g b)).length = 8 := by simp
      rw [hlen8]
      have hrec := ih (i - 8) (by simp at h; omega)
      rw [hrec]
      have e3 : i / 8 = (i - 8) / 8 + 1 := by omega
      have e2 : (i - 8) % 8 = i % 8 := by omega
      rw [e3, List.getD_cons_succ, e2]

lemma getD_reverse (l : List ℕ) (i : ℕ) (h : i < l.length) :
    l.reverse.getD i 0 = l.getD (l.length - 1 - i) 0 := by
  have h1 : i < l.reverse.length := by simpa using h
  rw [List.getD_eq_getElem?_getD, List.getElem?_eq_getElem h1]
  rw [List.getElem_reverse]
  rw [List.getD_eq_getElem?_getD, List.getElem?_eq_getElem (by omega)]

lemma bit_cast_eq_if (b k : ℕ) :
    (((b >>> k) &&& 1 : ℕ) : F) = (if ((b >>> k) &&& 1 == 1) then (1 : F) else 0) := by
  rcases Nat.mod_two_eq_zero_or_one (b >>> k) with h | h
  · rw [Nat.and_one_is_mod, h]
    simp
  · rw [Nat.and_one_is_mod, h]
    simp

/-- C8: for a 32-byte hash the packed public-input vector of create_proof
has exactly 256 elements, its element at index i is the field embedding of
(hash[31 - i/8] >> (i % 8)) & 1, and this agrees with the Boolean value the
circuit allocates for public hash bit i in generate_constraints. -/
theorem public_inputs_packing (hash : List ℕ) (hlen : hash.length = PDQ_HASH_LENGTH)
    (i : ℕ) (hi : i < PDQ_HASH_BITS) :
    (publicInputs hash).length = PDQ_HASH_BITS ∧
    (publicInputs hash).getD i 0 =
      (((hash.getD (PDQ_HASH_LENGTH - 1 - i / 8) 0 >>> (i % 8)) &&& 1 : ℕ) : F) ∧
    (publicInputs hash).getD i 0 = (if circuitHashBitValue hash i then (1 : F) else 0) := by
  have hlen32 : hash.length = 32 := by rw [hlen]; rfl
  have hi256 : i < 256 := hi
  have hmain : (publicInputs hash).getD i 0 =
      (((hash.getD (PDQ_HASH_LENGTH - 1 - i / 8) 0 >>> (i % 8)) &&& 1 : ℕ) : F) := by
    unfold publicInputs
    have h8 : i < 8 * hash.reverse.length := by
      rw [List.length_reverse, hlen32]
      omega
    rw [flatBits_getD (fun b t => (((b >>> t) &&& 1 : ℕ) : F)) hash.reverse i h8]
    have hrev : hash.reverse.getD (i / 8) 0 = hash.getD (hash.length - 1 - i / 8) 0 :=
      getD_reverse hash (i / 8) (by rw [hlen32]; omega)
    rw [hrev, hlen32]
    rfl
  refine ⟨?_, hmain, ?_⟩
  · unfold publicInputs
    rw [flatBits_length, List.length_reverse, hlen32]
    rfl
  · rw [hmain]
    unfold circuitHashBitValue
    exact bit_cast_eq_if (hash.getD (PDQ_HASH_LENGTH - 1 - i / 8) 0) (i % 8)

/-- Witness for C8: the packing theorem instantiated on the all-zero
32-byte hash at index 5. -/
theorem public_inputs_packing_witness :
    (publicInputs (List.replicate 32 0)).length = PDQ_HASH_BITS ∧
    (publicInputs (List.replicate 32 0)).getD 5 0 =
      ((((List.replicate 32 0).getD (PDQ_HASH_LENGTH - 1 - 5 / 8) 0 >>> (5 % 8)) &&& 1 : ℕ) : F) ∧
    (publicInputs (List.replicate 32 0)).getD 5 0 =
      (if circuitHashBitValue (List.replicate 32 0) 5 then (1 : F) else 0) :=
  public_inputs_packing (List.replicate 32 0) (by simp [PDQ_HASH_LENGTH]) 5
    (by norm_num [PDQ_HASH_BITS])

end PDQ
